import Mathlib

/-!
Shallow embedding of the color-separation core of G6 Ink Studio
(`src/color_model.py` and the calibration / enhancement parts of
`src/app.py`), together with theorems settling the specification claims.

Numeric convention: the Python source computes with IEEE floats; the
embedding idealizes float arithmetic as exact arithmetic in a linear
ordered field (`ℚ` for the decidable matrix pipeline, `ℝ` for the
gamma curves, percentile stretch and the pseudo-inverse, which involve
real powers and SVD-style linear algebra).
-/

open scoped Matrix

/-- An `H × W × c` image buffer (numpy `ndarray` of shape `(H, W, c)`). -/
def Pix (α : Type) (H W c : ℕ) : Type := Fin H → Fin W → Fin c → α

/-- `np.clip(x, 0.0, 1.0)` on one element: `minimum(1, maximum(0, x))`. -/
def clip01 {α : Type} [LinearOrderedField α] (x : α) : α := min 1 (max 0 x)

/-- Row-major ("C order") flat index of pixel `(h, w)`, as used by
`ndarray.reshape(-1, k)`. -/
def pixIndex {H W : ℕ} (h : Fin H) (w : Fin W) : Fin (H * W) :=
  ⟨h.1 * W + w.1, by
    have hh := h.2
    have hw := w.2
    calc h.1 * W + w.1 < h.1 * W + W := by omega
    _ = (h.1 + 1) * W := by ring
    _ ≤ H * W := Nat.mul_le_mul_right W (by omega)⟩

/-- Decoded row of a row-major flat index (`n / W`). -/
def pixRow {H W : ℕ} (n : Fin (H * W)) : Fin H :=
  ⟨n.1 / W, by
    have hn := n.2
    have hW : 0 < W := by
      rcases Nat.eq_zero_or_pos W with h0 | h0
      · subst h0; simp at hn
      · exact h0
    exact (Nat.div_lt_iff_lt_mul hW).2 (by omega)⟩

/-- Decoded column of a row-major flat index (`n % W`). -/
def pixCol {H W : ℕ} (n : Fin (H * W)) : Fin W :=
  ⟨n.1 % W, by
    have hn := n.2
    have hW : 0 < W := by
      rcases Nat.eq_zero_or_pos W with h0 | h0
      · subst h0; simp at hn
      · exact h0
    exact Nat.mod_lt _ hW⟩

/-- `channels_from_rgb_linear` (src/color_model.py, lines 43–53).

```
target = 1.0 - rgb_lin
flat = target.reshape(-1, 3).T        # (3, N)
ch = pinv @ flat                      # (6, N)
ch = np.clip(ch, 0.0, 1.0)
return ch.T.reshape(H, W, 6)
```

The `absorb` parameter is accepted (with the source's default) and, as in
the source, unused by the body. -/
def channels_from_rgb_linear {α : Type} [LinearOrderedField α] {H W : ℕ}
    (rgb_lin : Pix α H W 3)
    (absorb : Matrix (Fin 3) (Fin 6) α)
    (pinv : Matrix (Fin 6) (Fin 3) α) : Pix α H W 6 :=
  let target : Pix α H W 3 := fun h w i => 1 - rgb_lin h w i
  let flat : Matrix (Fin 3) (Fin (H * W)) α :=
    Matrix.of fun i n => target (pixRow n) (pixCol n) i
  let ch : Matrix (Fin 6) (Fin (H * W)) α := (pinv * flat).map clip01
  fun h w k => ch k (pixIndex h w)

/-- `rgb_linear_from_channels` (src/color_model.py, lines 56–65).

```
flat_ch = channels.reshape(-1, 6).T   # (6, N)
absorb_effect = absorb @ flat_ch      # (3, N)
rgb_lin = np.clip(1.0 - absorb_effect, 0.0, 1.0)
return rgb_lin.T.reshape(h, w, 3)
```
-/
def rgb_linear_from_channels {α : Type} [LinearOrderedField α] {H W : ℕ}
    (channels : Pix α H W 6)
    (absorb : Matrix (Fin 3) (Fin 6) α) : Pix α H W 3 :=
  let flat_ch : Matrix (Fin 6) (Fin (H * W)) α :=
    Matrix.of fun i n => channels (pixRow n) (pixCol n) i
  let absorb_effect : Matrix (Fin 3) (Fin (H * W)) α := absorb * flat_ch
  let rgb_lin : Matrix (Fin 3) (Fin (H * W)) α :=
    (Matrix.of fun i n => (1 : α) - absorb_effect i n).map clip01
  fun h w i => rgb_lin i (pixIndex h w)

/-- `DEFAULT_ABSORBANCE` (src/color_model.py, lines 24–32), idealized over ℚ. -/
def DEFAULT_ABSORBANCE : Matrix (Fin 3) (Fin 6) ℚ :=
  !![0.95, 0.00, 0.00, 0.70, 0.30, 0.33;
     0.00, 0.95, 0.00, 0.70, 0.55, 0.33;
     0.00, 0.00, 0.95, 0.70, 0.55, 0.33]

/-- Exact inverse of `DEFAULT_ABSORBANCE * DEFAULT_ABSORBANCEᵀ`, written out
as `(adjugate / det)` with integer entries scaled by the determinant.
`DEFAULT_ABSORBANCE` has full row rank, so the Moore–Penrose pseudo-inverse
computed by `np.linalg.pinv` equals `Aᵀ (A Aᵀ)⁻¹`; `gramInv` is the exact
rational value of `(A Aᵀ)⁻¹`. -/
def gramInv : Matrix (Fin 3) (Fin 3) ℚ :=
  (10000 / 2832160520000 : ℚ) •
    !![244153325, -68941975, -68941975;
       -68941975, 228718325, -85094475;
       -68941975, -85094475, 228718325]

/-- `DEFAULT_PINV = np.linalg.pinv(DEFAULT_ABSORBANCE)`
(src/color_model.py, line 35), as the exact rational Moore–Penrose
pseudo-inverse `Aᵀ (A Aᵀ)⁻¹` of the full-row-rank default matrix. -/
def DEFAULT_PINV : Matrix (Fin 6) (Fin 3) ℚ :=
  DEFAULT_ABSORBANCE.transpose * gramInv

/-- `gramInv` is symmetric. -/
lemma gramInv_symm : gramInv.transpose = gramInv := by
  ext i j
  fin_cases i <;> fin_cases j <;>
    simp [gramInv, Matrix.transpose_apply, Matrix.vecHead, Matrix.vecTail]

set_option maxHeartbeats 1000000 in
/-- The default matrix has full row rank and `DEFAULT_PINV` is a right
inverse for it: `A @ DEFAULT_PINV = I₃` exactly. -/
lemma default_mul_pinv : DEFAULT_ABSORBANCE * DEFAULT_PINV = 1 := by
  ext i j
  fin_cases i <;> fin_cases j <;>
    norm_num [Matrix.mul_apply, Fin.sum_univ_succ, Matrix.transpose_apply,
      DEFAULT_ABSORBANCE, DEFAULT_PINV, gramInv, Matrix.vecHead, Matrix.vecTail,
      Matrix.one_apply, Fin.ext_iff]

/-- Certificate that `DEFAULT_PINV` satisfies the four Penrose conditions,
hence is the (unique) Moore–Penrose pseudo-inverse of `DEFAULT_ABSORBANCE`,
matching the source's `np.linalg.pinv`. -/
lemma default_pinv_penrose :
    DEFAULT_ABSORBANCE * DEFAULT_PINV * DEFAULT_ABSORBANCE = DEFAULT_ABSORBANCE ∧
    DEFAULT_PINV * DEFAULT_ABSORBANCE * DEFAULT_PINV = DEFAULT_PINV ∧
    (DEFAULT_ABSORBANCE * DEFAULT_PINV).transpose = DEFAULT_ABSORBANCE * DEFAULT_PINV ∧
    (DEFAULT_PINV * DEFAULT_ABSORBANCE).transpose = DEFAULT_PINV * DEFAULT_ABSORBANCE := by
  refine ⟨?_, ?_, ?_, ?_⟩
  · rw [default_mul_pinv, Matrix.one_mul]
  · rw [Matrix.mul_assoc, default_mul_pinv, Matrix.mul_one]
  · rw [default_mul_pinv, Matrix.transpose_one]
  · have h : DEFAULT_PINV = DEFAULT_ABSORBANCE.transpose * gramInv := rfl
    rw [h, Matrix.transpose_mul, Matrix.transpose_mul, gramInv_symm,
      Matrix.transpose_transpose, ← Matrix.mul_assoc]

/-! ### Per-pixel characterization of the flattened matrix pipeline -/

lemma pixRow_pixIndex {H W : ℕ} (h : Fin H) (w : Fin W) :
    pixRow (pixIndex h w) = h := by
  have hW : 0 < W := w.pos
  apply Fin.ext
  show (h.1 * W + w.1) / W = h.1
  rw [Nat.add_comm, Nat.add_mul_div_right _ _ hW, Nat.div_eq_of_lt w.2,
    Nat.zero_add]

lemma pixCol_pixIndex {H W : ℕ} (h : Fin H) (w : Fin W) :
    pixCol (pixIndex h w) = w := by
  apply Fin.ext
  show (h.1 * W + w.1) % W = w.1
  rw [Nat.add_comm, Nat.add_mul_mod_self_right, Nat.mod_eq_of_lt w.2]

/-- What the reshape/transpose/matmul dance in `channels_from_rgb_linear`
does at one pixel: project the deficit vector through `pinv` and clamp. -/
lemma channels_from_rgb_linear_apply {α : Type} [LinearOrderedField α]
    {H W : ℕ} (rgb_lin : Pix α H W 3) (absorb : Matrix (Fin 3) (Fin 6) α)
    (pinv : Matrix (Fin 6) (Fin 3) α) (h : Fin H) (w : Fin W) (k : Fin 6) :
    channels_from_rgb_linear rgb_lin absorb pinv h w k
      = clip01 (∑ j, pinv k j * (1 - rgb_lin h w j)) := by
  simp only [channels_from_rgb_linear, Matrix.map_apply, Matrix.mul_apply,
    Matrix.of_apply, pixRow_pixIndex, pixCol_pixIndex]

/-- What `rgb_linear_from_channels` does at one pixel: subtract the absorbed
vector `absorb @ channel_vector` from 1 and clamp. -/
lemma rgb_linear_from_channels_apply {α : Type} [LinearOrderedField α]
    {H W : ℕ} (channels : Pix α H W 6) (absorb : Matrix (Fin 3) (Fin 6) α)
    (h : Fin H) (w : Fin W) (i : Fin 3) :
    rgb_linear_from_channels channels absorb h w i
      = clip01 (1 - ∑ j, absorb i j * channels h w j) := by
  simp only [rgb_linear_from_channels, Matrix.map_apply, Matrix.mul_apply,
    Matrix.of_apply, pixRow_pixIndex, pixCol_pixIndex]

lemma clip01_mem_Icc {α : Type} [LinearOrderedField α] (x : α) :
    clip01 x ∈ Set.Icc (0 : α) 1 := by
  constructor
  · exact le_min (by norm_num) (le_max_left 0 x)
  · exact min_le_left 1 _

lemma clip01_eq_self {α : Type} [LinearOrderedField α] {x : α}
    (h0 : 0 ≤ x) (h1 : x ≤ 1) : clip01 x = x := by
  unfold clip01
  rw [max_eq_right h0, min_eq_right h1]

set_option linter.unusedVariables false in
/-- C1: for a linear-RGB buffer with values in `[0,1]`, the forward
decomposition equals, at every pixel, `clip(P @ (1 − rgb_pixel), 0, 1)`;
the output has 6 channels per pixel (by its type) and every element lies
in `[0,1]`. -/
theorem channels_from_rgb_linear_spec {α : Type} [LinearOrderedField α]
    {H W : ℕ} (rgb_lin : Pix α H W 3) (A : Matrix (Fin 3) (Fin 6) α)
    (P : Matrix (Fin 6) (Fin 3) α)
    (hin : ∀ h w i, rgb_lin h w i ∈ Set.Icc (0 : α) 1) :
    ∀ (h : Fin H) (w : Fin W) (k : Fin 6),
      channels_from_rgb_linear rgb_lin A P h w k
          = clip01 (P.mulVec (fun i => 1 - rgb_lin h w i) k) ∧
        channels_from_rgb_linear rgb_lin A P h w k ∈ Set.Icc (0 : α) 1 := by
  intro h w k
  rw [channels_from_rgb_linear_apply]
  refine ⟨rfl, ?_⟩
  exact clip01_mem_Icc _

/-- A concrete 1×1 mid-gray linear-RGB buffer, used as witness input. -/
def halfGray : Pix ℚ 1 1 3 := fun _ _ _ => 1 / 2

/-- C1 witness: concrete instance over ℚ, a 1×1 mid-gray image with the
default matrices. -/
theorem channels_from_rgb_linear_spec_witness :
    channels_from_rgb_linear halfGray DEFAULT_ABSORBANCE DEFAULT_PINV 0 0 0
        = clip01 (DEFAULT_PINV.mulVec (fun i => 1 - halfGray 0 0 i) 0) ∧
      channels_from_rgb_linear halfGray DEFAULT_ABSORBANCE DEFAULT_PINV 0 0 0
        ∈ Set.Icc (0 : ℚ) 1 :=
  channels_from_rgb_linear_spec halfGray DEFAULT_ABSORBANCE DEFAULT_PINV
    (fun _ _ _ => by norm_num [halfGray]) 0 0 0

/-- C2: the reconstruction equals, at every pixel,
`clip(1 − A @ channel_vector, 0, 1)`; the output has 3 channels per pixel
(by its type). -/
theorem rgb_linear_from_channels_spec {α : Type} [LinearOrderedField α]
    {H W : ℕ} (channels : Pix α H W 6) (A : Matrix (Fin 3) (Fin 6) α) :
    ∀ (h : Fin H) (w : Fin W) (i : Fin 3),
      rgb_linear_from_channels channels A h w i
        = clip01 (1 - A.mulVec (fun j => channels h w j) i) := by
  intro h w i
  rw [rgb_linear_from_channels_apply]
  rfl

/-- C10: reconstructing from an all-zero channel stack yields pure white
(`[1,1,1]` at every pixel), for any 3×6 absorbance matrix. -/
theorem rgb_linear_from_channels_zero_white {α : Type} [LinearOrderedField α]
    {H W : ℕ} (A : Matrix (Fin 3) (Fin 6) α) :
    ∀ (h : Fin H) (w : Fin W) (i : Fin 3),
      rgb_linear_from_channels (fun _ _ _ => (0 : α)) A h w i = 1 := by
  intro h w i
  rw [rgb_linear_from_channels_apply]
  simp [clip01]

/-- Each row sum of `DEFAULT_PINV` lies in `[0,1]`: decomposing pure black
clips nothing. -/
lemma default_pinv_rowsum_mem :
    ∀ k : Fin 6, (∑ i, DEFAULT_PINV k i) ∈ Set.Icc (0 : ℚ) 1 := by
  intro k
  fin_cases k <;>
    norm_num [Set.mem_Icc, DEFAULT_PINV, DEFAULT_ABSORBANCE, gramInv,
      Matrix.mul_apply, Fin.sum_univ_succ, Matrix.transpose_apply,
      Matrix.vecHead, Matrix.vecTail]

/-- C5: with the default matrices, decomposing pure white gives exactly 0 in
all six channels at every pixel, and decomposing pure black gives a channel
stack whose reconstruction is exactly `[0,0,0]` at every pixel. -/
theorem default_white_black_decomposition {H W : ℕ} :
    (∀ (h : Fin H) (w : Fin W) (k : Fin 6),
        channels_from_rgb_linear (fun _ _ _ => (1 : ℚ))
          DEFAULT_ABSORBANCE DEFAULT_PINV h w k = 0) ∧
    (∀ (h : Fin H) (w : Fin W) (i : Fin 3),
        rgb_linear_from_channels
          (channels_from_rgb_linear (fun _ _ _ => (0 : ℚ))
            DEFAULT_ABSORBANCE DEFAULT_PINV)
          DEFAULT_ABSORBANCE h w i = 0) := by
  constructor
  · intro h w k
    rw [channels_from_rgb_linear_apply]
    simp [clip01]
  · intro h w i
    rw [rgb_linear_from_channels_apply]
    have hch : ∀ j : Fin 6,
        channels_from_rgb_linear (fun _ _ _ => (0 : ℚ))
            DEFAULT_ABSORBANCE DEFAULT_PINV h w j
          = ∑ l, DEFAULT_PINV j l := by
      intro j
      rw [channels_from_rgb_linear_apply]
      have hb := default_pinv_rowsum_mem j
      rw [Set.mem_Icc] at hb
      simp only [sub_zero, mul_one]
      exact clip01_eq_self hb.1 hb.2
    simp only [hch]
    have key : (∑ j, DEFAULT_ABSORBANCE i j * ∑ l, DEFAULT_PINV j l) = 1 := by
      calc ∑ j, DEFAULT_ABSORBANCE i j * ∑ l, DEFAULT_PINV j l
          = ∑ j, ∑ l, DEFAULT_ABSORBANCE i j * DEFAULT_PINV j l := by
            simp [Finset.mul_sum]
        _ = ∑ l, ∑ j, DEFAULT_ABSORBANCE i j * DEFAULT_PINV j l :=
            Finset.sum_comm
        _ = ∑ l, (DEFAULT_ABSORBANCE * DEFAULT_PINV) i l := by
            simp [Matrix.mul_apply]
        _ = ∑ l, (1 : Matrix (Fin 3) (Fin 3) ℚ) i l := by
            rw [default_mul_pinv]
        _ = 1 := by simp [Matrix.one_apply]
    rw [key]
    simp [clip01]

/-! ### sRGB ↔ linear transfer functions (src/color_model.py, lines 4–19)

The numpy code clips to `[0,1]`, then applies the piecewise transfer
function elementwise through a boolean mask; the embedding is the same
elementwise function over ℝ, with `**` as the real power. -/

noncomputable def srgb_to_linear (x : ℝ) : ℝ :=
  if clip01 x ≤ 0.04045 then clip01 x / 12.92
  else ((clip01 x + 0.055) / 1.055) ^ (2.4 : ℝ)

noncomputable def linear_to_srgb (x : ℝ) : ℝ :=
  if clip01 x ≤ 0.0031308 then clip01 x * 12.92
  else 1.055 * clip01 x ^ ((1 : ℝ) / 2.4) - 0.055

/-- Arrays are processed elementwise. -/
noncomputable def srgb_to_linear_list (l : List ℝ) : List ℝ :=
  l.map srgb_to_linear

/-- Arrays are processed elementwise. -/
noncomputable def linear_to_srgb_list (l : List ℝ) : List ℝ :=
  l.map linear_to_srgb

/-- Rational-exponent powers compare against rationals via integer powers. -/
lemma rpow_nat_div_le_iff {x b : ℝ} (hx : 0 ≤ x) (hb : 0 ≤ b) {p q : ℕ}
    (hq : 0 < q) :
    x ^ ((p : ℝ) / (q : ℝ)) ≤ b ↔ x ^ p ≤ b ^ q := by
  have hq' : ((q : ℝ)) ≠ 0 := Nat.cast_ne_zero.2 hq.ne'
  have hxr : 0 ≤ x ^ ((p : ℝ) / (q : ℝ)) := Real.rpow_nonneg hx _
  rw [← pow_le_pow_iff_left₀ hxr hb hq.ne']
  have hpow : (x ^ ((p : ℝ) / (q : ℝ))) ^ q = x ^ p := by
    rw [← Real.rpow_natCast (x ^ ((p : ℝ) / (q : ℝ))) q, ← Real.rpow_mul hx,
      div_mul_cancel₀ _ hq', Real.rpow_natCast]
  rw [hpow]

lemma le_rpow_nat_div_iff {x b : ℝ} (hx : 0 ≤ x) (hb : 0 ≤ b) {p q : ℕ}
    (hq : 0 < q) :
    b ≤ x ^ ((p : ℝ) / (q : ℝ)) ↔ b ^ q ≤ x ^ p := by
  have hq' : ((q : ℝ)) ≠ 0 := Nat.cast_ne_zero.2 hq.ne'
  have hxr : 0 ≤ x ^ ((p : ℝ) / (q : ℝ)) := Real.rpow_nonneg hx _
  rw [← pow_le_pow_iff_left₀ hb hxr hq.ne']
  have hpow : (x ^ ((p : ℝ) / (q : ℝ))) ^ q = x ^ p := by
    rw [← Real.rpow_natCast (x ^ ((p : ℝ) / (q : ℝ))) q, ← Real.rpow_mul hx,
      div_mul_cancel₀ _ hq', Real.rpow_natCast]
  rw [hpow]

/-- `(1 : ℝ)/2.4` is the rational exponent `5/12`. -/
lemma inv_gamma_eq : (1 : ℝ) / 2.4 = ((5 : ℕ) : ℝ) / ((12 : ℕ) : ℝ) := by
  norm_num

/-- Lower numeric bound for `0.0031308 ^ (1/2.4)`. -/
lemma srgb_knee_pow_lower : (0.09047 : ℝ) ≤ (0.0031308 : ℝ) ^ ((1 : ℝ) / 2.4) := by
  rw [inv_gamma_eq, le_rpow_nat_div_iff (by norm_num) (by norm_num) (by norm_num)]
  norm_num

/-- Upper numeric bound for `(0.04045 / 12.92) ^ (1/2.4)`. -/
lemma srgb_knee_pow_upper :
    ((0.04045 : ℝ) / 12.92) ^ ((1 : ℝ) / 2.4) ≤ 0.09048 := by
  rw [inv_gamma_eq, rpow_nat_div_le_iff (by norm_num) (by norm_num) (by norm_num)]
  norm_num

/-- Above the sRGB knee, the power branch lands strictly above the
linear-side threshold `0.0031308`. -/
lemma srgb_power_branch_above_knee :
    (0.0031308 : ℝ) < ((0.09545 : ℝ) / 1.055) ^ (2.4 : ℝ) := by
  have h24 : (2.4 : ℝ) = ((12 : ℕ) : ℝ) / ((5 : ℕ) : ℝ) := by norm_num
  rw [h24, lt_iff_not_le,
    rpow_nat_div_le_iff (by norm_num) (by norm_num) (by norm_num), not_le]
  norm_num

/-- C3 at one element: the gamma round trip is within `1e-5` on `[0,1]`. -/
theorem srgb_roundtrip_scalar (x : ℝ) (hx : 0 ≤ x) (hx1 : x ≤ 1) :
    |linear_to_srgb (srgb_to_linear x) - x| ≤ 1e-5 := by
  have hclip : clip01 x = x := clip01_eq_self hx hx1
  rw [srgb_to_linear, hclip]
  by_cases hb : x ≤ 0.04045
  · rw [if_pos hb]
    have hy0 : 0 ≤ x / 12.92 := div_nonneg hx (by norm_num)
    have hy1 : x / 12.92 ≤ 1 := by
      rw [div_le_one (by norm_num)]; linarith
    rw [linear_to_srgb, clip01_eq_self hy0 hy1]
    by_cases hc : x / 12.92 ≤ 0.0031308
    · rw [if_pos hc]
      have hval : x / 12.92 * 12.92 = x := by field_simp
      rw [hval, sub_self, abs_zero]
      norm_num
    · rw [if_neg hc]
      push_neg at hc
      have hxlow : 0.040449936 < x := by
        have h := (lt_div_iff (by norm_num : (0:ℝ) < 12.92)).1 hc
        linarith
      have hwlo : (0.09047 : ℝ) ≤ (x / 12.92) ^ ((1 : ℝ) / 2.4) := by
        refine le_trans srgb_knee_pow_lower ?_
        exact Real.rpow_le_rpow (by norm_num) (le_of_lt hc) (by norm_num)
      have hwhi : (x / 12.92) ^ ((1 : ℝ) / 2.4) ≤ 0.09048 := by
        refine le_trans ?_ srgb_knee_pow_upper
        refine Real.rpow_le_rpow hy0 ?_ (by norm_num)
        exact (div_le_div_right (by norm_num : (0:ℝ) < 12.92)).2 hb
      rw [abs_le]
      constructor <;> nlinarith [hwlo, hwhi, hxlow, hb]
  · rw [if_neg hb]
    push_neg at hb
    have hu0 : 0 ≤ (x + 0.055) / 1.055 := by positivity
    have hu1 : (x + 0.055) / 1.055 ≤ 1 := by
      rw [div_le_one (by norm_num)]; linarith
    have hy0 : 0 ≤ ((x + 0.055) / 1.055) ^ (2.4 : ℝ) := Real.rpow_nonneg hu0 _
    have hy1 : ((x + 0.055) / 1.055) ^ (2.4 : ℝ) ≤ 1 :=
      Real.rpow_le_one hu0 hu1 (by norm_num)
    rw [linear_to_srgb, clip01_eq_self hy0 hy1]
    have hknee : (0.09545 : ℝ) / 1.055 ≤ (x + 0.055) / 1.055 := by
      apply div_le_div_of_nonneg_right ?_ (by norm_num)
      · linarith
    have hygt : ¬ (((x + 0.055) / 1.055) ^ (2.4 : ℝ) ≤ 0.0031308) := by
      push_neg
      calc (0.0031308 : ℝ) < ((0.09545 : ℝ) / 1.055) ^ (2.4 : ℝ) :=
            srgb_power_branch_above_knee
        _ ≤ ((x + 0.055) / 1.055) ^ (2.4 : ℝ) :=
            Real.rpow_le_rpow (by norm_num) hknee (by norm_num)
    rw [if_neg hygt]
    have hcomp : (((x + 0.055) / 1.055) ^ (2.4 : ℝ)) ^ ((1 : ℝ) / 2.4)
        = (x + 0.055) / 1.055 := by
      rw [← Real.rpow_mul hu0]
      norm_num
    rw [hcomp]
    have hval : 1.055 * ((x + 0.055) / 1.055) - 0.055 = x := by
      field_simp
    rw [hval, sub_self, abs_zero]
    norm_num

/-- C3: for every array with elements in `[0,1]`, the round trip
`linear_to_srgb (srgb_to_linear x)` is elementwise within `1e-5` of `x`. -/
theorem srgb_roundtrip_spec (l : List ℝ) (hl : ∀ x ∈ l, 0 ≤ x ∧ x ≤ 1) :
    List.Forall₂ (fun r x => |r - x| ≤ 1e-5)
      (linear_to_srgb_list (srgb_to_linear_list l)) l := by
  induction l with
  | nil => simp [srgb_to_linear_list, linear_to_srgb_list]
  | cons a t ih =>
    have ha := hl a (List.mem_cons_self a t)
    refine List.Forall₂.cons (srgb_roundtrip_scalar a ha.1 ha.2) ?_
    exact ih fun x hx => hl x (List.mem_cons_of_mem a hx)

/-- C3 witness: concrete one-element array `[1/2]`. -/
theorem srgb_roundtrip_spec_witness :
    List.Forall₂ (fun r x => |r - x| ≤ 1e-5)
      (linear_to_srgb_list (srgb_to_linear_list [(1 : ℝ) / 2])) [(1 : ℝ) / 2] :=
  srgb_roundtrip_spec [(1 : ℝ) / 2] (by
    intro x hx
    rw [List.mem_singleton] at hx
    subst hx
    norm_num)

/-! ### `compute_pinv` (src/color_model.py, lines 38–40)

`compute_pinv` delegates to `np.linalg.pinv`, whose documented semantics is
the Moore–Penrose pseudo-inverse (computed by SVD, defined for every real
matrix).  The embedding models that semantics exactly: factor the linear map
through the bijection `(ker f)ᗮ ≃ range f` and precompose with the
orthogonal projection onto the range — the classical least-norm
least-squares pseudo-inverse, total on all (also rank-deficient or zero)
matrices. -/

/-- The restriction of `f` to the orthogonal complement of its kernel,
viewed as a map into its range. -/
noncomputable def resMap
    (f : EuclideanSpace ℝ (Fin 6) →ₗ[ℝ] EuclideanSpace ℝ (Fin 3)) :
    ((LinearMap.ker f)ᗮ : Submodule ℝ (EuclideanSpace ℝ (Fin 6)))
      →ₗ[ℝ] LinearMap.range f :=
  LinearMap.codRestrict (LinearMap.range f) (f.comp (Submodule.subtype _))
    fun c => LinearMap.mem_range_self f c.1

lemma resMap_bijective
    (f : EuclideanSpace ℝ (Fin 6) →ₗ[ℝ] EuclideanSpace ℝ (Fin 3)) :
    Function.Bijective (resMap f) := by
  constructor
  · intro x y hxy
    have hfeq : f x.1 = f y.1 := congrArg Subtype.val hxy
    have hker : x.1 - y.1 ∈ LinearMap.ker f := by
      rw [LinearMap.mem_ker, map_sub, hfeq, sub_self]
    have horth : x.1 - y.1 ∈ (LinearMap.ker f)ᗮ := sub_mem x.2 y.2
    have hz : x.1 - y.1 = 0 :=
      Submodule.disjoint_def.1 (Submodule.orthogonal_disjoint _) _ hker horth
    exact Subtype.ext (sub_eq_zero.1 hz)
  · rintro ⟨b, a, rfl⟩
    have hsup : a ∈ (LinearMap.ker f) ⊔ (LinearMap.ker f)ᗮ := by
      rw [codisjoint_iff.1
        (Submodule.isCompl_orthogonal_of_completeSpace
          (K := LinearMap.ker f)).codisjoint]
      exact Submodule.mem_top
    obtain ⟨y, hy, z, hz, hyz⟩ := Submodule.mem_sup.1 hsup
    refine ⟨⟨z, hz⟩, Subtype.ext ?_⟩
    show f z = f a
    rw [← hyz, map_add, LinearMap.mem_ker.1 hy, zero_add]

/-- The bijection between the orthogonal complement of the kernel and the
range induced by `f`. -/
noncomputable def pinvEquiv
    (f : EuclideanSpace ℝ (Fin 6) →ₗ[ℝ] EuclideanSpace ℝ (Fin 3)) :
    ((LinearMap.ker f)ᗮ : Submodule ℝ (EuclideanSpace ℝ (Fin 6)))
      ≃ₗ[ℝ] LinearMap.range f :=
  LinearEquiv.ofBijective (resMap f) (resMap_bijective f)

lemma pinvEquiv_coe
    (f : EuclideanSpace ℝ (Fin 6) →ₗ[ℝ] EuclideanSpace ℝ (Fin 3))
    (z : ((LinearMap.ker f)ᗮ : Submodule ℝ (EuclideanSpace ℝ (Fin 6)))) :
    ((pinvEquiv f z : LinearMap.range f) : EuclideanSpace ℝ (Fin 3))
      = f z.1 := rfl

/-- The Moore–Penrose pseudo-inverse of a linear map `f` between Euclidean
spaces: orthogonally project onto `range f`, then pull back through the
bijection `(ker f)ᗮ ≃ range f` (least-norm least-squares solution). -/
noncomputable def pinvFun
    (f : EuclideanSpace ℝ (Fin 6) →ₗ[ℝ] EuclideanSpace ℝ (Fin 3)) :
    EuclideanSpace ℝ (Fin 3) →ₗ[ℝ] EuclideanSpace ℝ (Fin 6) :=
  (Submodule.subtype _) ∘ₗ (pinvEquiv f).symm.toLinearMap ∘ₗ
    (orthogonalProjection (LinearMap.range f)).toLinearMap

lemma pinvFun_apply
    (f : EuclideanSpace ℝ (Fin 6) →ₗ[ℝ] EuclideanSpace ℝ (Fin 3))
    (b : EuclideanSpace ℝ (Fin 3)) :
    pinvFun f b
      = ((pinvEquiv f).symm (orthogonalProjection (LinearMap.range f) b)).1 :=
  rfl

lemma f_pinvFun
    (f : EuclideanSpace ℝ (Fin 6) →ₗ[ℝ] EuclideanSpace ℝ (Fin 3))
    (b : EuclideanSpace ℝ (Fin 3)) :
    f (pinvFun f b) = (orthogonalProjection (LinearMap.range f) b
      : EuclideanSpace ℝ (Fin 3)) := by
  rw [pinvFun_apply, ← pinvEquiv_coe, (pinvEquiv f).apply_symm_apply]

lemma f_pinvFun_f
    (f : EuclideanSpace ℝ (Fin 6) →ₗ[ℝ] EuclideanSpace ℝ (Fin 3))
    (x : EuclideanSpace ℝ (Fin 6)) :
    f (pinvFun f (f x)) = f x := by
  rw [f_pinvFun]
  exact orthogonalProjection_eq_self_iff.2 (LinearMap.mem_range_self f x)

lemma pinvFun_f_pinvFun
    (f : EuclideanSpace ℝ (Fin 6) →ₗ[ℝ] EuclideanSpace ℝ (Fin 3))
    (b : EuclideanSpace ℝ (Fin 3)) :
    pinvFun f (f (pinvFun f b)) = pinvFun f b := by
  rw [f_pinvFun, pinvFun_apply, pinvFun_apply,
    orthogonalProjection_mem_subspace_eq_self]

/-- `compute_pinv` (src/color_model.py, lines 38–40): the Moore–Penrose
pseudo-inverse of a 3×6 matrix, as computed by `np.linalg.pinv`. -/
noncomputable def compute_pinv (A : Matrix (Fin 3) (Fin 6) ℝ) :
    Matrix (Fin 6) (Fin 3) ℝ :=
  Matrix.toEuclideanLin.symm (pinvFun (Matrix.toEuclideanLin A))

lemma toEuclideanLin_mul {a b c : ℕ} (M : Matrix (Fin a) (Fin b) ℝ)
    (N : Matrix (Fin b) (Fin c) ℝ) :
    Matrix.toEuclideanLin (M * N)
      = (Matrix.toEuclideanLin M).comp (Matrix.toEuclideanLin N) := by
  rw [Matrix.toEuclideanLin_eq_toLin, Matrix.toEuclideanLin_eq_toLin,
    Matrix.toEuclideanLin_eq_toLin]
  exact Matrix.toLin_mul (PiLp.basisFun 2 ℝ (Fin c)) (PiLp.basisFun 2 ℝ (Fin b))
    (PiLp.basisFun 2 ℝ (Fin a)) M N

/-- C4: `compute_pinv` is total (it is defined for every real 3×6 matrix,
including rank-deficient and all-zero ones) and its result satisfies the
Moore–Penrose identities `P @ A @ P = P` and `A @ P @ A = A` exactly. -/
theorem compute_pinv_spec (A : Matrix (Fin 3) (Fin 6) ℝ) :
    compute_pinv A * A * compute_pinv A = compute_pinv A ∧
    A * compute_pinv A * A = A := by
  have hP : Matrix.toEuclideanLin (compute_pinv A)
      = pinvFun (Matrix.toEuclideanLin A) :=
    Matrix.toEuclideanLin.apply_symm_apply _
  constructor
  · apply Matrix.toEuclideanLin.injective
    rw [toEuclideanLin_mul, toEuclideanLin_mul, hP]
    apply LinearMap.ext
    intro b
    simp only [LinearMap.comp_apply]
    exact pinvFun_f_pinvFun (Matrix.toEuclideanLin A) b
  · apply Matrix.toEuclideanLin.injective
    rw [toEuclideanLin_mul, toEuclideanLin_mul, hP]
    apply LinearMap.ext
    intro x
    simp only [LinearMap.comp_apply]
    exact f_pinvFun_f (Matrix.toEuclideanLin A) x

/-! ### Calibration state of the app (src/app.py)

The UI object holds `self.absorb_matrix` / `self.absorb_pinv`
(initialized at lines 105–106) and mutates them in
`_apply_calibration` (789–803), `_reset_calibration` (804–809),
`_load_calibration_file` (811–832) and `_apply_preset` (858–867).
UI-only effects (message boxes, entry widgets, `_process_image`,
status labels) do not touch the pair and are dropped; reported errors
are modelled by a boolean. -/

/-- `DEFAULT_ABSORBANCE` over ℝ, for the app-state model. -/
def DEFAULT_ABSORBANCE_R : Matrix (Fin 3) (Fin 6) ℝ :=
  !![0.95, 0.00, 0.00, 0.70, 0.30, 0.33;
     0.00, 0.95, 0.00, 0.70, 0.55, 0.33;
     0.00, 0.00, 0.95, 0.70, 0.55, 0.33]

/-- `DEFAULT_PINV = np.linalg.pinv(DEFAULT_ABSORBANCE)` over ℝ. -/
noncomputable def DEFAULT_PINV_R : Matrix (Fin 6) (Fin 3) ℝ :=
  compute_pinv DEFAULT_ABSORBANCE_R

/-- The pair `(self.absorb_matrix, self.absorb_pinv)`. -/
structure CalibState where
  absorb_matrix : Matrix (Fin 3) (Fin 6) ℝ
  absorb_pinv : Matrix (Fin 6) (Fin 3) ℝ

/-- Initial state (src/app.py, lines 105–106). -/
noncomputable def initState : CalibState :=
  ⟨DEFAULT_ABSORBANCE_R, DEFAULT_PINV_R⟩

/-- The state invariant of §4.2: the stored pseudo-inverse is the
pseudo-inverse of the stored matrix. -/
def PinvInvariant (st : CalibState) : Prop :=
  st.absorb_pinv = compute_pinv st.absorb_matrix

/-- `_apply_calibration`: the 18 entry fields parse to floats
(`some vals`) or raise `ValueError` (`none`, error shown, state kept);
parsed values are clipped to `[0, 1.2]` and both halves of the pair are
replaced. -/
noncomputable def applyCalibration (st : CalibState)
    (entries : Option (Matrix (Fin 3) (Fin 6) ℝ)) : CalibState :=
  match entries with
  | none => st
  | some vals =>
      let vals' := vals.map fun x => min 1.2 (max 0 x)
      ⟨vals', compute_pinv vals'⟩

/-- `_reset_calibration`: restore the built-in default pair. -/
noncomputable def resetCalibration (_ : CalibState) : CalibState :=
  ⟨DEFAULT_ABSORBANCE_R, DEFAULT_PINV_R⟩

/-- Outcome of choosing a calibration file. -/
inductive CalibFile where
  /-- The file dialog was cancelled (`if not path: return`). -/
  | cancelled
  /-- `json.load`, the `absorb` key lookup, or the numeric conversion
  `np.array(..., dtype=np.float32)` raised. -/
  | malformed
  /-- The `absorb` field parsed to a numeric nested list. -/
  | numeric (rows : List (List ℝ))

/-- Result of `_load_calibration_file`: new state plus whether an error
dialog was shown. -/
structure LoadResult where
  state : CalibState
  errorReported : Bool

/-- `np.array(rows)` has shape exactly `(3, 6)`. -/
def shapeOk (rows : List (List ℝ)) : Prop :=
  rows.length = 3 ∧ ∀ r ∈ rows, r.length = 6

instance (rows : List (List ℝ)) : Decidable (shapeOk rows) := by
  unfold shapeOk
  infer_instance

/-- The (3,6) matrix held by a well-shaped nested list. -/
def rowsToMatrix (rows : List (List ℝ)) : Matrix (Fin 3) (Fin 6) ℝ :=
  Matrix.of fun i j => (rows.getD i.1 []).getD j.1 0

/-- `_load_calibration_file` (src/app.py, lines 811–832). -/
noncomputable def loadCalibrationFile (st : CalibState) (file : CalibFile) :
    LoadResult :=
  match file with
  | .cancelled => ⟨st, false⟩
  | .malformed => ⟨st, true⟩
  | .numeric rows =>
      if shapeOk rows then
        let mat := rowsToMatrix rows
        ⟨⟨mat, compute_pinv mat⟩, false⟩
      else ⟨st, true⟩

/-- `CALIB_PRESETS` (src/app.py, lines 42–58). -/
def CALIB_PRESETS : String → Option (Matrix (Fin 3) (Fin 6) ℝ) := fun name =>
  if name = "Orthogonal CMY (default)" then
    some !![0.95, 0.00, 0.00, 0.70, 0.30, 0.33;
            0.00, 0.95, 0.00, 0.70, 0.55, 0.33;
            0.00, 0.00, 0.95, 0.70, 0.55, 0.33]
  else if name = "Neutral Gray Boost" then
    some !![0.95, 0.00, 0.00, 0.70, 0.30, 0.45;
            0.00, 0.95, 0.00, 0.70, 0.55, 0.45;
            0.00, 0.00, 0.95, 0.70, 0.55, 0.45]
  else if name = "Soft Black" then
    some !![0.90, 0.00, 0.00, 0.55, 0.25, 0.30;
            0.00, 0.90, 0.00, 0.55, 0.50, 0.30;
            0.00, 0.00, 0.90, 0.55, 0.50, 0.30]
  else none

/-- `_apply_preset` (src/app.py, lines 858–867): unknown names are a
no-op, known ones replace the pair. -/
noncomputable def applyPreset (st : CalibState) (name : String) : CalibState :=
  match CALIB_PRESETS name with
  | none => st
  | some mat => ⟨mat, compute_pinv mat⟩

/-- C7: every mutation of the absorbance state — apply-matrix,
reset-to-default, load-from-file, preset-select — preserves the invariant
`absorb_pinv = compute_pinv absorb_matrix`: matrix and pseudo-inverse are
replaced together, so a computation never observes a stale pseudo-inverse. -/
theorem calibration_pinv_invariant (st : CalibState)
    (hst : PinvInvariant st)
    (entries : Option (Matrix (Fin 3) (Fin 6) ℝ)) (file : CalibFile)
    (name : String) :
    PinvInvariant (applyCalibration st entries) ∧
    PinvInvariant (resetCalibration st) ∧
    PinvInvariant (loadCalibrationFile st file).state ∧
    PinvInvariant (applyPreset st name) := by
  refine ⟨?_, ?_, ?_, ?_⟩
  · cases entries with
    | none => exact hst
    | some vals => rfl
  · rfl
  · cases file with
    | cancelled => exact hst
    | malformed => exact hst
    | numeric rows =>
        by_cases hs : shapeOk rows
        · simp only [loadCalibrationFile, if_pos hs]
          rfl
        · simp only [loadCalibrationFile, if_neg hs]
          exact hst
  · unfold applyPreset
    cases h : CALIB_PRESETS name with
    | none => exact hst
    | some mat => rfl

/-- C7 witness: the initial state satisfies the invariant and keeps it
under a concrete instance of each operation. -/
theorem calibration_pinv_invariant_witness :
    PinvInvariant (applyCalibration initState none) ∧
    PinvInvariant (resetCalibration initState) ∧
    PinvInvariant (loadCalibrationFile initState CalibFile.cancelled).state ∧
    PinvInvariant (applyPreset initState "Soft Black") :=
  calibration_pinv_invariant initState rfl none CalibFile.cancelled "Soft Black"

/-- C6: loading a calibration file whose `absorb` field is non-numeric
(`malformed`) or not exactly 3×6 is a reported, recoverable failure that
leaves the active pair unchanged; a successful 3×6 load replaces both the
matrix and its pseudo-inverse. -/
theorem load_calibration_spec (st : CalibState) (rows : List (List ℝ)) :
    ((loadCalibrationFile st CalibFile.malformed).state = st ∧
      (loadCalibrationFile st CalibFile.malformed).errorReported = true) ∧
    (¬ shapeOk rows →
      (loadCalibrationFile st (CalibFile.numeric rows)).state = st ∧
      (loadCalibrationFile st (CalibFile.numeric rows)).errorReported = true) ∧
    (shapeOk rows →
      (loadCalibrationFile st (CalibFile.numeric rows)).state.absorb_matrix
          = rowsToMatrix rows ∧
      (loadCalibrationFile st (CalibFile.numeric rows)).state.absorb_pinv
          = compute_pinv (rowsToMatrix rows) ∧
      (loadCalibrationFile st (CalibFile.numeric rows)).errorReported = false) := by
  refine ⟨⟨rfl, rfl⟩, ?_, ?_⟩
  · intro hs
    simp only [loadCalibrationFile, if_neg hs]
    constructor <;> trivial
  · intro hs
    simp only [loadCalibrationFile, if_pos hs]
    refine ⟨?_, ?_, ?_⟩ <;> trivial

/-- C6 witness: a concrete 1×1 `absorb` field is rejected with the state
unchanged. -/
theorem load_calibration_spec_witness :
    (loadCalibrationFile initState (CalibFile.numeric [[1]])).state = initState ∧
    (loadCalibrationFile initState (CalibFile.numeric [[1]])).errorReported = true :=
  (load_calibration_spec initState [[1]]).2.1 (by simp [shapeOk])

/-! ### Channel enhancement stage (src/app.py, lines 1085–1101)

```
boost = float(self.contrast_boost.get())
for idx in range(6):
    ch = channels[..., idx]
    lo, hi = np.percentile(ch, [0.5, 99.5])
    if hi - lo < 1e-5:
        out[..., idx] = ch; continue
    ch = np.clip((ch - lo) / (hi - lo), 0.0, 1.0)
    if boost > 1.0:
        ch = np.clip(ch ** (1.0 / boost), 0.0, 1.0)
    out[..., idx] = ch
```
-/

/-- `np.percentile(a, q)` with the default linear interpolation: sort the
flattened data ascending, take position `q/100 * (n-1)` and interpolate
between the two neighbouring order statistics. -/
noncomputable def percentile (l : List ℝ) (q : ℝ) : ℝ :=
  let s := l.insertionSort (· ≤ ·)
  let pos := q * ((l.length : ℝ) - 1) / 100
  let i := ⌊pos⌋₊
  s.getD i 0 + (pos - (i : ℝ)) * (s.getD (i + 1) 0 - s.getD i 0)

/-- The flattened (C-order, as `np.percentile` flattens) plane
`channels[..., idx]`. -/
def planeList {H W : ℕ} (channels : Pix ℝ H W 6) (idx : Fin 6) : List ℝ :=
  List.ofFn fun n : Fin (H * W) => channels (pixRow n) (pixCol n) idx

/-- `_enhance_channel_maps`: per-channel percentile stretch with optional
power-law contrast boost. -/
noncomputable def enhance_channel_maps {H W : ℕ} (boost : ℝ)
    (channels : Pix ℝ H W 6) : Pix ℝ H W 6 :=
  fun h w idx =>
    let lo := percentile (planeList channels idx) 0.5
    let hi := percentile (planeList channels idx) 99.5
    if hi - lo < 1e-5 then channels h w idx
    else
      let v := clip01 ((channels h w idx - lo) / (hi - lo))
      if boost > 1 then clip01 (v ^ ((1 : ℝ) / boost)) else v

lemma planeList_congr {H W : ℕ} {x y : Pix ℝ H W 6} {idx : Fin 6}
    (hxy : ∀ h w, x h w idx = y h w idx) :
    planeList x idx = planeList y idx :=
  congrArg List.ofFn (funext fun n => hxy _ _)

/-- C8: the enhancement stage treats the six planes independently (the
output in plane `idx` depends only on the input plane `idx`), and on each
plane follows the three-case percentile-stretch contract: degenerate spread
passes through, otherwise remap-and-clamp, with a further clamped
`v^(1/boost)` power law exactly when `boost > 1`. -/
theorem enhance_channel_maps_spec {H W : ℕ} (boost : ℝ)
    (x y : Pix ℝ H W 6) (idx : Fin 6) :
    ((∀ h w, x h w idx = y h w idx) →
      ∀ h w, enhance_channel_maps boost x h w idx
        = enhance_channel_maps boost y h w idx) ∧
    (∀ h w,
      (percentile (planeList x idx) 99.5 - percentile (planeList x idx) 0.5
          < 1e-5 →
        enhance_channel_maps boost x h w idx = x h w idx) ∧
      (¬ (percentile (planeList x idx) 99.5 - percentile (planeList x idx) 0.5
          < 1e-5) → ¬ boost > 1 →
        enhance_channel_maps boost x h w idx
          = clip01 ((x h w idx - percentile (planeList x idx) 0.5)
              / (percentile (planeList x idx) 99.5
                  - percentile (planeList x idx) 0.5))) ∧
      (¬ (percentile (planeList x idx) 99.5 - percentile (planeList x idx) 0.5
          < 1e-5) → boost > 1 →
        enhance_channel_maps boost x h w idx
          = clip01 ((clip01 ((x h w idx - percentile (planeList x idx) 0.5)
              / (percentile (planeList x idx) 99.5
                  - percentile (planeList x idx) 0.5))) ^ ((1 : ℝ) / boost)))) := by
  constructor
  · intro hxy h w
    have hplane : planeList x idx = planeList y idx := planeList_congr hxy
    simp only [enhance_channel_maps, hplane, hxy h w]
  · intro h w
    refine ⟨?_, ?_, ?_⟩
    · intro hdeg
      simp only [enhance_channel_maps]
      rw [if_pos hdeg]
    · intro hdeg hboost
      simp only [enhance_channel_maps]
      rw [if_neg hdeg, if_neg hboost]
    · intro hdeg hboost
      simp only [enhance_channel_maps]
      rw [if_neg hdeg, if_pos hboost]

lemma clip01_of_nonpos {x : ℝ} (h : x ≤ 0) : clip01 x = 0 := by
  unfold clip01
  rw [max_eq_left h, min_eq_right (by norm_num)]

/-- Evaluation scheme for `percentile` on concrete data. -/
lemma percentile_eval (l s : List ℝ) (q pos : ℝ) (i : ℕ)
    (hs : l.insertionSort (· ≤ ·) = s)
    (hpos : q * ((l.length : ℝ) - 1) / 100 = pos)
    (hi : ⌊pos⌋₊ = i) :
    percentile l q
      = s.getD i 0 + (pos - (i : ℝ)) * (s.getD (i + 1) 0 - s.getD i 0) := by
  simp only [percentile, hs, hpos, hi]

lemma percentile_singleton (c : ℝ) (q : ℝ) : percentile [c] q = c := by
  rw [percentile_eval [c] [c] q 0 0
    (List.Sorted.insertionSort_eq (by simp))
    (by norm_num) (by norm_num)]
  norm_num

/-- A constant 1×1 stack, witness input for the enhancement contract. -/
noncomputable def constHalf : Pix ℝ 1 1 6 := fun _ _ _ => 1 / 2

lemma planeList_constHalf (idx : Fin 6) : planeList constHalf idx = [1 / 2] := rfl

/-- C8 witness: on a constant 1×1 stack the spread is degenerate and the
channel passes through unchanged. -/
theorem enhance_channel_maps_spec_witness :
    enhance_channel_maps 1 constHalf 0 0 0 = constHalf 0 0 0 :=
  ((enhance_channel_maps_spec 1 constHalf constHalf 0).2 0 0).1 (by
    rw [planeList_constHalf, percentile_singleton, percentile_singleton]
    norm_num)

/-- Counterexample plane for percentile-stretch idempotence: a 1×4 stack
(same data in all six channels) whose 0.5th/99.5th percentiles are exactly
0 and 1 but which contains a value below 0. -/
noncomputable def cePlane : Pix ℝ 1 4 6 := fun _ w _ => ![(-3) / 400, 197 / 400, 1, 1] w

/-- The image of `cePlane` under one application of the stretch. -/
noncomputable def ce2Plane : Pix ℝ 1 4 6 := fun _ w _ => ![0, 197 / 400, 1, 1] w

lemma planeList_ce (idx : Fin 6) :
    planeList cePlane idx = [(-3) / 400, 197 / 400, 1, 1] := rfl

lemma planeList_ce2 (idx : Fin 6) :
    planeList ce2Plane idx = [0, 197 / 400, 1, 1] := rfl

lemma percentile_ce_lo :
    percentile [(-3 : ℝ) / 400, 197 / 400, 1, 1] 0.5 = 0 := by
  rw [percentile_eval _ [(-3 : ℝ) / 400, 197 / 400, 1, 1] 0.5 (3 / 200) 0
    (List.Sorted.insertionSort_eq (by norm_num [List.sorted_cons]))
    (by norm_num) (Nat.floor_eq_zero.mpr (by norm_num))]
  norm_num

lemma percentile_ce_hi :
    percentile [(-3 : ℝ) / 400, 197 / 400, 1, 1] 99.5 = 1 := by
  rw [percentile_eval _ [(-3 : ℝ) / 400, 197 / 400, 1, 1] 99.5 (597 / 200) 2
    (List.Sorted.insertionSort_eq (by norm_num [List.sorted_cons]))
    (by norm_num) (by rw [Nat.floor_eq_iff (by norm_num)]; norm_num)]
  norm_num

lemma percentile_ce2_lo :
    percentile [(0 : ℝ), 197 / 400, 1, 1] 0.5 = 591 / 80000 := by
  rw [percentile_eval _ [(0 : ℝ), 197 / 400, 1, 1] 0.5 (3 / 200) 0
    (List.Sorted.insertionSort_eq (by norm_num [List.sorted_cons]))
    (by norm_num) (Nat.floor_eq_zero.mpr (by norm_num))]
  norm_num

lemma percentile_ce2_hi :
    percentile [(0 : ℝ), 197 / 400, 1, 1] 99.5 = 1 := by
  rw [percentile_eval _ [(0 : ℝ), 197 / 400, 1, 1] 99.5 (597 / 200) 2
    (List.Sorted.insertionSort_eq (by norm_num [List.sorted_cons]))
    (by norm_num) (by rw [Nat.floor_eq_iff (by norm_num)]; norm_num)]
  norm_num

/-- The non-degenerate, no-boost branch of the stretch, as an equation. -/
lemma enhance_apply_formula {H W : ℕ} (boost : ℝ) (x : Pix ℝ H W 6)
    (h : Fin H) (w : Fin W) (idx : Fin 6)
    (hdeg : ¬ (percentile (planeList x idx) 99.5
        - percentile (planeList x idx) 0.5 < 1e-5))
    (hboost : ¬ boost > 1) :
    enhance_channel_maps boost x h w idx
      = clip01 ((x h w idx - percentile (planeList x idx) 0.5)
          / (percentile (planeList x idx) 99.5
              - percentile (planeList x idx) 0.5)) := by
  simp only [enhance_channel_maps]
  rw [if_neg hdeg, if_neg hboost]

lemma enhance_ce_eval (h : Fin 1) (w : Fin 4) (idx : Fin 6) :
    enhance_channel_maps 1 cePlane h w idx = ce2Plane h w idx := by
  simp only [enhance_channel_maps, planeList_ce, percentile_ce_lo,
    percentile_ce_hi]
  rw [if_neg (by norm_num), if_neg (by norm_num : ¬ (1 : ℝ) > 1)]
  have harg : ∀ v : ℝ, (v - 0) / (1 - 0) = v := fun v => by norm_num
  rw [harg]
  fin_cases w
  · exact (clip01_of_nonpos (by norm_num [cePlane])).trans (by norm_num [ce2Plane])
  · exact (clip01_eq_self (by norm_num [cePlane]) (by norm_num [cePlane])).trans
      (by norm_num [cePlane, ce2Plane])
  · exact (clip01_eq_self (by norm_num [cePlane]) (by norm_num [cePlane])).trans
      (by norm_num [cePlane, ce2Plane])
  · exact (clip01_eq_self (by norm_num [cePlane]) (by norm_num [cePlane])).trans
      (by norm_num [cePlane, ce2Plane])

/-- C9 counterexample: `cePlane` has 0.5th percentile exactly 0 and 99.5th
percentile exactly 1 in channel 0, with contrast-boost 1.0, yet applying
the enhancement twice differs from applying it once at pixel (0,1): the
first pass clips the negative value to 0, which shifts the second pass's
0.5th percentile to a positive value. -/
theorem enhance_idempotence_counterexample :
    percentile (planeList cePlane 0) 0.5 = 0 ∧
    percentile (planeList cePlane 0) 99.5 = 1 ∧
    enhance_channel_maps 1 (enhance_channel_maps 1 cePlane) 0 1 0
      ≠ enhance_channel_maps 1 cePlane 0 1 0 := by
  refine ⟨by rw [planeList_ce]; exact percentile_ce_lo,
    by rw [planeList_ce]; exact percentile_ce_hi, ?_⟩
  have hp2 : planeList (enhance_channel_maps 1 cePlane) 0
      = [0, 197 / 400, 1, 1] := by
    rw [planeList_congr (fun h w => enhance_ce_eval h w 0), planeList_ce2]
  have hdeg2 : ¬ (percentile (planeList (enhance_channel_maps 1 cePlane) 0) 99.5
      - percentile (planeList (enhance_channel_maps 1 cePlane) 0) 0.5 < 1e-5) := by
    rw [hp2, percentile_ce2_lo, percentile_ce2_hi]
    norm_num
  rw [enhance_apply_formula 1 (enhance_channel_maps 1 cePlane) 0 1 0 hdeg2
    (by norm_num)]
  rw [hp2, percentile_ce2_lo, percentile_ce2_hi, enhance_ce_eval 0 1 0]
  have hv : ce2Plane 0 1 0 = 197 / 400 := rfl
  rw [hv]
  have harg : ((197 : ℝ) / 400 - 591 / 80000) / (1 - 591 / 80000)
      = 38809 / 79409 := by norm_num
  rw [harg, clip01_eq_self (by norm_num) (by norm_num)]
  norm_num

/-- With boost 1, the stretch is the identity on a plane that spans exactly
`[0,1]` at the 0.5/99.5 percentiles and whose values all lie in `[0,1]`. -/
lemma enhance_identity_of_stretched {H W : ℕ} (x : Pix ℝ H W 6) (idx : Fin 6)
    (hlo : percentile (planeList x idx) 0.5 = 0)
    (hhi : percentile (planeList x idx) 99.5 = 1)
    (hin : ∀ h w, 0 ≤ x h w idx ∧ x h w idx ≤ 1) :
    ∀ h w, enhance_channel_maps 1 x h w idx = x h w idx := by
  intro h w
  simp only [enhance_channel_maps, hlo, hhi]
  rw [if_neg (by norm_num), if_neg (by norm_num : ¬ (1 : ℝ) > 1)]
  have harg : (x h w idx - 0) / (1 - 0) = x h w idx := by norm_num
  rw [harg, clip01_eq_self (hin h w).1 (hin h w).2]

/-- C9 (amended): for a channel plane whose 0.5th percentile is exactly 0,
whose 99.5th percentile is exactly 1 *and whose values all lie in `[0,1]`*
(an already-stretched plane), applying the enhancement stage twice with
contrast-boost 1.0 equals applying it once. -/
theorem enhance_idempotent_on_stretched {H W : ℕ} (x : Pix ℝ H W 6)
    (idx : Fin 6)
    (hlo : percentile (planeList x idx) 0.5 = 0)
    (hhi : percentile (planeList x idx) 99.5 = 1)
    (hin : ∀ h w, 0 ≤ x h w idx ∧ x h w idx ≤ 1) :
    ∀ h w, enhance_channel_maps 1 (enhance_channel_maps 1 x) h w idx
      = enhance_channel_maps 1 x h w idx := by
  have h1 := enhance_identity_of_stretched x idx hlo hhi hin
  have hplane : planeList (enhance_channel_maps 1 x) idx = planeList x idx :=
    planeList_congr h1
  have h2 := enhance_identity_of_stretched (enhance_channel_maps 1 x) idx
    (by rw [hplane]; exact hlo) (by rw [hplane]; exact hhi)
    (fun h w => by rw [h1 h w]; exact hin h w)
  intro h w
  exact h2 h w

/-- An already-stretched 1×4 plane, witness input for idempotence. -/
noncomputable def wPlane : Pix ℝ 1 4 6 := fun _ w _ => ![0, 0, 1, 1] w

lemma planeList_w (idx : Fin 6) : planeList wPlane idx = [0, 0, 1, 1] := rfl

lemma percentile_w_lo : percentile [(0 : ℝ), 0, 1, 1] 0.5 = 0 := by
  rw [percentile_eval _ [(0 : ℝ), 0, 1, 1] 0.5 (3 / 200) 0
    (List.Sorted.insertionSort_eq (by norm_num [List.sorted_cons]))
    (by norm_num) (Nat.floor_eq_zero.mpr (by norm_num))]
  norm_num

lemma percentile_w_hi : percentile [(0 : ℝ), 0, 1, 1] 99.5 = 1 := by
  rw [percentile_eval _ [(0 : ℝ), 0, 1, 1] 99.5 (597 / 200) 2
    (List.Sorted.insertionSort_eq (by norm_num [List.sorted_cons]))
    (by norm_num) (by rw [Nat.floor_eq_iff (by norm_num)]; norm_num)]
  norm_num

/-- C9 (amended) witness: concrete already-stretched plane. -/
theorem enhance_idempotent_on_stretched_witness :
    enhance_channel_maps 1 (enhance_channel_maps 1 wPlane) 0 0 0
      = enhance_channel_maps 1 wPlane 0 0 0 :=
  enhance_idempotent_on_stretched wPlane 0
    (by rw [planeList_w]; exact percentile_w_lo)
    (by rw [planeList_w]; exact percentile_w_hi)
    (fun h w => by fin_cases w <;> constructor <;> norm_num [wPlane])
    0 0
